import Mathlib

/-
Verification of the Smart Doc Checker core pipeline
(backend/nlp/clause_parser.py and backend/checker/contradiction_detector.py).

Strings are modelled as `List Char` (Python `str`, ASCII fragment); Python
floats are modelled as exact unreduced fractions of naturals (every number the
code constructs is a nonnegative decimal, so float rounding never plays a role
in the properties below); dictionaries are modelled as insertion-ordered
association lists, matching Python 3.7+ dict semantics.
-/

namespace SmartDoc

/-- Python whitespace (ASCII fragment), as matched by `\s`, `str.strip()` and
`str.split()`. -/
def isWs (c : Char) : Bool :=
  c == ' ' || c == '\t' || c == '\n' || c == '\r' || c == '\x0b' || c == '\x0c'

/-- Python word characters `\w` (ASCII fragment): letters, digits, underscore. -/
def isWordChar (c : Char) : Bool := c.isAlphanum || c == '_'

/-- `str.lower()` (ASCII). -/
def lowerL (l : List Char) : List Char := l.map Char.toLower

/-- `str.lstrip()`: drop leading whitespace. -/
def lstripL (l : List Char) : List Char := l.dropWhile isWs

/-- `str.rstrip()`: drop trailing whitespace. -/
def rstripL : List Char → List Char
  | [] => []
  | c :: t => if rstripL t = [] ∧ isWs c = true then [] else c :: rstripL t

/-- `str.strip()`: drop whitespace on both ends. -/
def stripL (l : List Char) : List Char := rstripL (lstripL l)

/-- Worker for `re.sub(r'\s+', ' ', text)`: `prev` records whether the
previous character was whitespace (i.e. whether we are inside a run). -/
def collapseGo : Bool → List Char → List Char
  | _, [] => []
  | prev, c :: t =>
    if isWs c then
      (if prev then collapseGo true t else ' ' :: collapseGo true t)
    else c :: collapseGo false t

/-- `re.sub(r'\s+', ' ', text)`: collapse each maximal whitespace run to one
space. -/
def collapseL (l : List Char) : List Char := collapseGo false l

/-- Does `l` start with the pattern `p`? -/
def startsL : List Char → List Char → Bool
  | [], _ => true
  | _ :: _, [] => false
  | p :: ps, c :: cs => p == c && startsL ps cs

/-- Python substring test `pat in hay` (contiguous substring). -/
def substrB (pat : List Char) : List Char → Bool
  | [] => decide (pat = [])
  | c :: t => startsL pat (c :: t) || substrB pat t

/-- Numeric value of a run of decimal digit characters (`int(...)` on a
regex-captured digit group). -/
def digitsVal (l : List Char) : Nat :=
  l.foldl (fun n c => n * 10 + (c.toNat - 48)) 0

def takeDigits (l : List Char) : List Char := l.takeWhile Char.isDigit

def dropDigits (l : List Char) : List Char := l.dropWhile Char.isDigit

/-- Worker for Python `str.split()` (split on whitespace runs, no empty
fields); `acc` holds the reversed current field. -/
def splitWsGo : List Char → List Char → List (List Char)
  | acc, [] => if acc = [] then [] else [acc.reverse]
  | acc, c :: t =>
    if isWs c then (if acc = [] then [] else [acc.reverse]) ++ splitWsGo [] t
    else splitWsGo (c :: acc) t

/-- Python `str.split()`. -/
def splitWsL (l : List Char) : List (List Char) := splitWsGo [] l

/-- Worker for Python `str.title()` (ASCII): uppercase a letter that follows a
non-letter, lowercase the rest. -/
def titleGo : Bool → List Char → List Char
  | _, [] => []
  | prev, c :: t =>
    (if c.isAlpha then (if prev then c.toLower else c.toUpper) else c) ::
      titleGo c.isAlpha t

/-- Python `str.title()` (ASCII). -/
def titleCase (l : List Char) : List Char := titleGo false l

/-- `str.replace('_', ' ')`. -/
def underscoreToSpace (l : List Char) : List Char :=
  l.map fun c => if c == '_' then ' ' else c

/-- The ASCII apostrophe, used by Python `repr` of strings. -/
def quoteChar : Char := Char.ofNat 39

/-- A clause value: either a plain string or a list of strings
(`important_dates`). -/
inductive PyVal where
  | s : String → PyVal
  | l : List String → PyVal
deriving DecidableEq

/-- Comma-space separated join, as in Python list repr. -/
def joinComma : List (List Char) → List Char
  | [] => []
  | [x] => x
  | x :: y :: t => x ++ ',' :: ' ' :: joinComma (y :: t)

/-- Python `str()` of a clause value.  For a plain string it is the string
itself; for a list it is the bracketed element-repr form `['a', 'b']`
(quote escaping inside elements is not modelled; no claim depends on it). -/
def pyStrL : PyVal → List Char
  | .s str => str.toList
  | .l xs => '[' :: joinComma (xs.map fun x => quoteChar :: x.toList ++ [quoteChar]) ++ [']']

/-- A Python float produced by the detector, modelled as an exact unreduced
fraction `num / den` of naturals (all numbers the code builds are nonnegative
decimals, exactly representable). -/
structure PyFloat where
  num : Nat
  den : Nat
deriving DecidableEq

/-- Float equality (`==` on the exact values), by cross multiplication. -/
def PyFloat.eqB (a b : PyFloat) : Bool := decide (a.num * b.den = b.num * a.den)

/-- Float strict order (`<` on the exact values), by cross multiplication. -/
def PyFloat.ltB (a b : PyFloat) : Bool := decide (a.num * b.den < b.num * a.den)

/-- `re.sub(r'[$,]', '', str(value))`: strip currency symbols and commas. -/
def stripCurrency (l : List Char) : List Char :=
  l.filter fun c => !(c == '$' || c == ',')

/-- Attempt the pattern `(\d+(?:\.\d+)?)\s*K` (IGNORECASE) at the current
position; returns the captured number.  Greediness is deterministic here: a
shorter digit run leaves a digit where `\s*K` must match, so no backtracking
can succeed where the maximal runs fail. -/
def tryKAt (l : List Char) : Option PyFloat :=
  let d := takeDigits l
  if d = [] then none else
  match dropDigits l with
  | '.' :: r2 =>
    let f := takeDigits r2
    if f = [] then none else
    match (dropDigits r2).dropWhile isWs with
    | c :: _ =>
      if c.toLower == 'k' then
        some ⟨digitsVal d * 10 ^ f.length + digitsVal f, 10 ^ f.length⟩
      else none
    | [] => none
  | r =>
    match r.dropWhile isWs with
    | c :: _ => if c.toLower == 'k' then some ⟨digitsVal d, 1⟩ else none
    | [] => none

/-- `re.search` for the K-notation pattern: leftmost match. -/
def scanK : List Char → Option PyFloat
  | [] => none
  | c :: t =>
    match tryKAt (c :: t) with
    | some q => some q
    | none => scanK t

/-- Attempt the pattern `(\d+(?:\.\d{2})?)` at the current position. -/
def tryNumAt (l : List Char) : Option PyFloat :=
  let d := takeDigits l
  if d = [] then none else
  match dropDigits l with
  | '.' :: a :: b :: _ =>
    if a.isDigit && b.isDigit then
      some ⟨digitsVal d * 100 + digitsVal [a, b], 100⟩
    else some ⟨digitsVal d, 1⟩
  | _ => some ⟨digitsVal d, 1⟩

/-- `re.search` for the plain-number pattern: leftmost match. -/
def scanNum : List Char → Option PyFloat
  | [] => none
  | c :: t =>
    match tryNumAt (c :: t) with
    | some q => some q
    | none => scanNum t

/-- `extract_number` from `_compare_numeric_values`: strip `$`/commas, try the
K-suffix (thousands) form if a `k`/`K` is present, otherwise the first plain
number with optional two decimals. -/
def extractNumber (v : PyVal) : Option PyFloat :=
  let cleaned := stripCurrency (pyStrL v)
  if cleaned.any (fun c => c.toLower == 'k') then
    match scanK cleaned with
    | some q => some ⟨q.num * 1000, q.den⟩
    | none => scanNum cleaned
  else scanNum cleaned

/-- `differs` of `_compare_numeric_values`: unequal parsed numbers, falling
back to case-sensitive stripped text inequality when either parse fails. -/
def numericDiffers (v1 v2 : PyVal) : Bool :=
  match extractNumber v1, extractNumber v2 with
  | some n1, some n2 => !(n1.eqB n2)
  | _, _ => decide (stripL (pyStrL v1) ≠ stripL (pyStrL v2))

/-- Match `stem` (case-insensitive) plus an optional trailing `s`/`S`,
returning the matched characters as written; used for the alternation
`days?|weeks?|months?`. -/
def matchUnitWord (stem : String) (l : List Char) : Option (List Char) :=
  if lowerL (l.take stem.length) = stem.toList then
    match l.drop stem.length with
    | c :: _ =>
      if c.toLower == 's' then some (l.take stem.length ++ [c])
      else some (l.take stem.length)
    | [] => some (l.take stem.length)
  else none

/-- Match the alternation `days?|weeks?|months?` (IGNORECASE); the three
alternatives start with distinct letters, so first-match order is
deterministic. -/
def matchUnit (l : List Char) : Option (List Char) :=
  (matchUnitWord "day" l).orElse fun _ =>
    (matchUnitWord "week" l).orElse fun _ => matchUnitWord "month" l

/-- Attempt `(\d+)\s+(days?|weeks?|months?)` (IGNORECASE) at the current
position, returning the two captured groups. -/
def tryDurAt (l : List Char) : Option (List Char × List Char) :=
  let d := takeDigits l
  if d = [] then none else
  let r := dropDigits l
  if r.takeWhile isWs = [] then none else
  (matchUnit (r.dropWhile isWs)).map fun u => (d, u)

/-- `re.search` for the duration pattern: leftmost match. -/
def findDur : List Char → Option (List Char × List Char)
  | [] => none
  | c :: t =>
    match tryDurAt (c :: t) with
    | some m => some m
    | none => findDur t

/-- `parse_duration` from `_compare_time_durations`: convert a matched
duration to days (weeks times 7, months times 30). -/
def parseDuration (v : PyVal) : Option Nat :=
  match findDur (pyStrL v) with
  | none => none
  | some (d, u) =>
    let unit := lowerL u
    if substrB "day".toList unit then some (digitsVal d)
    else if substrB "week".toList unit then some (digitsVal d * 7)
    else if substrB "month".toList unit then some (digitsVal d * 30)
    else none

/-- `differs` of `_compare_time_durations`. -/
def durationDiffers (v1 v2 : PyVal) : Bool :=
  match parseDuration v1, parseDuration v2 with
  | some d1, some d2 => decide (d1 ≠ d2)
  | _, _ =>
    decide (lowerL (stripL (pyStrL v1)) ≠ lowerL (stripL (pyStrL v2)))

/-- The one- or two-digit prefixes a greedy `(\d{1,2})` tries at the current
position, longest first, each with its remainder. -/
def hourCandidates : List Char → List (Nat × List Char)
  | a :: b :: t =>
    if a.isDigit && b.isDigit then
      [(digitsVal [a, b], t), (digitsVal [a], b :: t)]
    else if a.isDigit then [(digitsVal [a], b :: t)] else []
  | [a] => if a.isDigit then [(digitsVal [a], [])] else []
  | [] => []

/-- Match `\s*(am|pm)` (IGNORECASE): returns `true` for pm and the
remainder. -/
def matchAmPm (l : List Char) : Option (Bool × List Char) :=
  match l.dropWhile isWs with
  | a :: m :: t =>
    if a.toLower == 'a' && m.toLower == 'm' then some (false, t)
    else if a.toLower == 'p' && m.toLower == 'm' then some (true, t)
    else none
  | _ => none

/-- Match `\s*(?:to|-)` (IGNORECASE), returning the remainder. -/
def matchToDash (l : List Char) : Option (List Char) :=
  match l.dropWhile isWs with
  | a :: b :: t =>
    if a.toLower == 't' && b.toLower == 'o' then some t
    else if a == '-' then some (b :: t) else none
  | [a] => if a == '-' then some [] else none
  | [] => none

/-- Attempt `(\d{1,2})\s*(am|pm)\s*(?:to|-)\s*(\d{1,2})\s*(am|pm)`
(IGNORECASE) at the current position, returning the two (hour, is-pm)
captures.  Only the two `\d{1,2}` groups need backtracking; every other
component is deterministic (distinct first characters, greedy `\s*`
cannot trade with the non-whitespace token that follows). -/
def tryRangeAt (l : List Char) : Option ((Nat × Bool) × (Nat × Bool)) :=
  (hourCandidates l).findSome? fun hc1 =>
    (matchAmPm hc1.2).bind fun pc1 =>
      (matchToDash pc1.2).bind fun r3 =>
        (hourCandidates (r3.dropWhile isWs)).findSome? fun hc2 =>
          (matchAmPm hc2.2).map fun pc2 =>
            ((hc1.1, pc1.1), (hc2.1, pc2.1))

/-- `re.search` for the time-range pattern: leftmost match. -/
def findRange : List Char → Option ((Nat × Bool) × (Nat × Bool))
  | [] => none
  | c :: t =>
    match tryRangeAt (c :: t) with
    | some m => some m
    | none => findRange t

/-- 12-hour to 24-hour conversion from `parse_time_range`. -/
def to24 (h : Nat) (pm : Bool) : Nat :=
  if pm ∧ h ≠ 12 then h + 12
  else if ¬pm ∧ h = 12 then 0
  else h

/-- `parse_time_range` from `_compare_time_ranges`. -/
def parseTimeRange (v : PyVal) : Option (Nat × Nat) :=
  (findRange (pyStrL v)).map fun m => (to24 m.1.1 m.1.2, to24 m.2.1 m.2.2)

/-- `differs` of `_compare_time_ranges`. -/
def timeRangeDiffers (v1 v2 : PyVal) : Bool :=
  match parseTimeRange v1, parseTimeRange v2 with
  | some r1, some r2 => decide (r1 ≠ r2)
  | _, _ =>
    decide (lowerL (stripL (pyStrL v1)) ≠ lowerL (stripL (pyStrL v2)))

/-- `differs` of `_compare_datetime_values`: lowercased, stripped,
whitespace-collapsed inequality. -/
def datetimeDiffers (v1 v2 : PyVal) : Bool :=
  decide (collapseL (lowerL (stripL (pyStrL v1))) ≠
          collapseL (lowerL (stripL (pyStrL v2))))

/-- `differs` of `_compare_text_exact`: stripped lowercased inequality. -/
def textExactDiffers (v1 v2 : PyVal) : Bool :=
  decide (lowerL (stripL (pyStrL v1)) ≠ lowerL (stripL (pyStrL v2)))

/-- Element normalization in `_compare_date_lists`: `str(v).strip().lower()`. -/
def normDate (s : String) : List Char := lowerL (stripL s.toList)

/-- `differs` of `_compare_date_lists`: set inequality when both values are
lists, otherwise exact text comparison. -/
def dateListDiffers (v1 v2 : PyVal) : Bool :=
  match v1, v2 with
  | .l xs, .l ys => decide ((xs.map normDate).toFinset ≠ (ys.map normDate).toFinset)
  | _, _ => textExactDiffers v1 v2

/-- The conflicting term pairs of `_compare_text_semantic`. -/
def conflictingPairs : List (List Char × List Char) :=
  [("with".toList, "without".toList),
   ("cause".toList, "no cause".toList),
   ("immediate".toList, "notice".toList),
   ("either".toList, "employer only".toList)]

/-- One conflicting-pair test: either term in one text with its partner in
the other (Python substring `in`). -/
def pairHit (t1 t2 : List Char) (p : List Char × List Char) : Bool :=
  (substrB p.1 t1 && substrB p.2 t2) || (substrB p.2 t1 && substrB p.1 t2)

/-- The conflicting-pairs loop of `_compare_text_semantic`. -/
def hasConflict (t1 t2 : List Char) : Bool :=
  conflictingPairs.any (pairHit t1 t2)

/-- `_calculate_text_similarity`: Jaccard similarity of the word sets, with
the guards for empty strings and an empty union. -/
def similarity (t1 t2 : List Char) : PyFloat :=
  if t1 = [] ∧ t2 = [] then ⟨1, 1⟩
  else if t1 = [] ∨ t2 = [] then ⟨0, 1⟩
  else
    let w1 := (splitWsL t1).toFinset
    let w2 := (splitWsL t2).toFinset
    if w1 ∪ w2 = ∅ then ⟨0, 1⟩ else ⟨(w1 ∩ w2).card, (w1 ∪ w2).card⟩

/-- `differs` of `_compare_text_semantic`: a conflicting-pair hit, otherwise
Jaccard similarity below 0.5. -/
def semanticDiffers (v1 v2 : PyVal) : Bool :=
  let t1 := stripL (lowerL (pyStrL v1))
  let t2 := stripL (lowerL (pyStrL v2))
  if hasConflict t1 t2 then true else (similarity t1 t2).ltB ⟨1, 2⟩

/-- The comparison-type dispatch of `_compare_clause_values`. -/
def comparatorDiffers (v1 v2 : PyVal) (t : String) : Bool :=
  if t = "time_duration" then durationDiffers v1 v2
  else if t = "time_range" then timeRangeDiffers v1 v2
  else if t = "numeric" then numericDiffers v1 v2
  else if t = "datetime" then datetimeDiffers v1 v2
  else if t = "date_list" then dateListDiffers v1 v2
  else if t = "text_semantic" then semanticDiffers v1 v2
  else textExactDiffers v1 v2

/-- Result of `_compare_clause_values`: the contradiction flag and the
`details["error"]` entry set by the exception handler (when present). -/
structure CompareResult where
  differs : Bool
  errorEvidence : Option String
deriving DecidableEq

/-- A comparator run, as fallible code (`Except` models a raised Python
exception).  On `PyVal` inputs the actual comparators are total. -/
def comparatorRun (v1 v2 : PyVal) (t : String) : Except String Bool :=
  .ok (comparatorDiffers v1 v2 t)

/-- The `try`/`except` wrapper of `_compare_clause_values`: a comparator
exception becomes `differs = false` with the message recorded in evidence. -/
def compareWith (run : PyVal → PyVal → String → Except String Bool)
    (v1 v2 : PyVal) (t : String) : CompareResult :=
  match run v1 v2 t with
  | .ok b => ⟨b, none⟩
  | .error e => ⟨false, some e⟩

/-- `_compare_clause_values`. -/
def compareClauseValues (v1 v2 : PyVal) (t : String) : CompareResult :=
  compareWith comparatorRun v1 v2 t

/-- `unit.lower().rstrip('s')` from `_extract_notice_period`: strip all
trailing `s` characters. -/
def rstripS (l : List Char) : List Char :=
  (l.reverse.dropWhile fun c => c == 's').reverse

/-- The `written_numbers` table of `_extract_notice_period`, in dict
insertion order. -/
def writtenNumbers : List (String × String) :=
  [("fourteen", "14"), ("thirty", "30"), ("sixty", "60"), ("ninety", "90")]

/-- The written-number fallback loop of `_extract_notice_period`. -/
def writtenBranch (text : List Char) : Option (List Char) :=
  writtenNumbers.findSome? fun wn =>
    if substrB wn.1.toList (lowerL text) then
      if substrB "day".toList (lowerL text) then
        some (wn.2.toList ++ " days".toList)
      else if substrB "week".toList (lowerL text) then
        some (wn.2.toList ++ " weeks".toList)
      else if substrB "month".toList (lowerL text) then
        some (wn.2.toList ++ " months".toList)
      else none
    else none

/-- `_extract_notice_period`: on a `(\d+)\s+(days?|weeks?|months?)` match,
re-render as number, space, and the lowercased de-pluralized unit with an `s`
appended exactly when the number exceeds 1; otherwise the written-number
fallback; otherwise the stripped raw text. -/
def extractNoticePeriod (text : List Char) : List Char :=
  match findDur text with
  | some du =>
    du.1 ++ ' ' ::
      (rstripS (lowerL du.2) ++ if 1 < digitsVal du.1 then ['s'] else [])
  | none => (writtenBranch text).getD (stripL text)

/-- The scalar cleanup of `_post_process_clauses`: strip, then collapse
whitespace runs. -/
def cleanScalar (s : String) : List Char := collapseL (stripL s.toList)

/-- One entry of the `_post_process_clauses` loop: a scalar value survives
when its cleaned length is in [2, 200]; a list survives when some entry's
stripped form is nonempty and longer than 2, keeping exactly those entries. -/
def postEntry : String × PyVal → Option (String × PyVal)
  | (k, .s str) =>
    if (cleanScalar str).length < 2 ∨ 200 < (cleanScalar str).length then none
    else some (k, .s (String.mk (cleanScalar str)))
  | (k, .l xs) =>
    let cleaned := (xs.map fun x => stripL x.toList).filter fun x =>
      x ≠ [] ∧ 2 < x.length
    if cleaned = [] then none else some (k, .l (cleaned.map String.mk))

/-- `_post_process_clauses`. -/
def postProcessClauses (clauses : List (String × PyVal)) : List (String × PyVal) :=
  clauses.filterMap postEntry

/-- Worker for word-boundary substitution: `acc` holds the reversed current
maximal word-character run, to which `f` is applied when the run ends. -/
def subWordsGo (f : List Char → List Char) : List Char → List Char → List Char
  | acc, [] => if acc = [] then [] else f acc.reverse
  | acc, c :: t =>
    if isWordChar c then subWordsGo f (c :: acc) t
    else (if acc = [] then [] else f acc.reverse) ++ c :: subWordsGo f [] t

/-- Apply `f` to every maximal word-character run of `l`, keeping all other
characters in place.  A pattern `\b(w1|w2)\b` whose alternatives consist only
of word characters matches exactly the maximal word-character runs equal to an
alternative (a `\b` cannot fall strictly inside such a run), so
`re.sub(r'\b(w|d)\b', d, text, flags=IGNORECASE)` is `subWords` with the
per-run function `wordNumSub w d`. -/
def subWords (f : List Char → List Char) (l : List Char) : List Char :=
  subWordsGo f [] l

/-- Per-run replacement for `re.sub(r'\b(w|d)\b', d, ..., IGNORECASE)`:
a run equal (case-insensitively) to either alternative becomes `d`. -/
def wordNumSub (w d : List Char) (r : List Char) : List Char :=
  if lowerL r = w ∨ lowerL r = d then d else r

/-- Match the page-marker pattern `--- Page \d+ ---` at the current position,
returning the remainder after the match.  The digit run is deterministic: a
shorter run leaves a digit where the literal ` ---` must match. -/
def markerRest (l : List Char) : Option (List Char) :=
  if startsL "--- Page ".toList l then
    let r := l.drop 9
    if takeDigits r = [] then none
    else if startsL " ---".toList (dropDigits r) then
      some ((dropDigits r).drop 4)
    else none
  else none

/-- Fuel-indexed worker for `re.sub(r'--- Page \d+ ---', '', text)`: remove
each leftmost non-overlapping match.  The fuel (initially the length of the
input, an upper bound on the number of steps) only makes the recursion
structural. -/
def rmGo : Nat → List Char → List Char
  | 0, l => l
  | _ + 1, [] => []
  | fuel + 1, c :: t =>
    match markerRest (c :: t) with
    | some rest => rmGo fuel rest
    | none => c :: rmGo fuel t

/-- `re.sub(r'--- Page \d+ ---', '', text)`. -/
def removeMarkers (l : List Char) : List Char := rmGo l.length l

/-- Per-run function of `re.sub(r'\b(thirty|30)\b', '30', ..., IGNORECASE)`. -/
def sub30 : List Char → List Char := wordNumSub "thirty".toList "30".toList

/-- Per-run function of `re.sub(r'\b(sixty|60)\b', '60', ..., IGNORECASE)`. -/
def sub60 : List Char → List Char := wordNumSub "sixty".toList "60".toList

/-- Per-run function of `re.sub(r'\b(ninety|90)\b', '90', ..., IGNORECASE)`. -/
def sub90 : List Char → List Char := wordNumSub "ninety".toList "90".toList

/-- Per-run function of `re.sub(r'\b(fourteen|14)\b', '14', ..., IGNORECASE)`. -/
def sub14 : List Char → List Char := wordNumSub "fourteen".toList "14".toList

/-- The four written-number rewrites of `_clean_text`, in source order. -/
def rwNumbers (l : List Char) : List Char :=
  subWords sub14 (subWords sub90 (subWords sub60 (subWords sub30 l)))

/-- `_clean_text`: collapse whitespace, remove page markers, rewrite the four
spelled-out numbers (word-boundary anchored, case-insensitive), strip. -/
def cleanList (l : List Char) : List Char :=
  stripL (rwNumbers (removeMarkers (collapseL l)))

/-- `_clean_text` on Python strings. -/
def cleanText (s : String) : String := String.mk (cleanList s.toList)

/-- A document as consumed by `detect_contradictions`: filename, optional id
and path, and the parsed clause map (insertion-ordered). -/
structure PyDoc where
  filename : String
  docId : Option Nat
  filePath : Option String
  clauses : List (String × PyVal)
deriving DecidableEq

/-- One clause instance collected by `_group_clauses_by_type`. -/
structure ClauseInst where
  filename : String
  docId : Option Nat
  filePath : Option String
  value : PyVal
  clauseType : String
deriving DecidableEq

/-- A contradiction-rule entry. -/
structure Rule where
  comparisonType : String
  severity : String
  description : String
deriving DecidableEq

/-- `_setup_contradiction_rules` together with the `.get` default of
`_detect_clause_contradictions`. -/
def contradictionRules (ct : String) : Rule :=
  if ct = "notice_period" then
    ⟨"time_duration", "high", "Notice period requirements differ between documents"⟩
  else if ct = "working_hours" then
    ⟨"time_range", "medium", "Working hours specifications are inconsistent"⟩
  else if ct = "termination_clause" then
    ⟨"text_semantic", "high", "Termination conditions conflict between documents"⟩
  else if ct = "deadline" then
    ⟨"datetime", "high", "Deadline requirements are contradictory"⟩
  else if ct = "salary" then
    ⟨"numeric", "critical", "Salary amounts differ between documents"⟩
  else if ct = "important_dates" then
    ⟨"date_list", "medium", "Important dates are inconsistent across documents"⟩
  else
    ⟨"text_exact", "medium",
      String.mk (ct.toList ++ " values differ between documents".toList)⟩

/-- Append an instance to its clause type's group, preserving first-seen key
order (Python `defaultdict` iteration order). -/
def addInst (gs : List (String × List ClauseInst)) (ct : String)
    (inst : ClauseInst) : List (String × List ClauseInst) :=
  match gs with
  | [] => [(ct, [inst])]
  | g :: rest =>
    if g.1 = ct then (g.1, g.2 ++ [inst]) :: rest
    else g :: addInst rest ct inst

/-- `_group_clauses_by_type`. -/
def groupClauses (docs : List PyDoc) : List (String × List ClauseInst) :=
  docs.foldl
    (fun gs doc =>
      doc.clauses.foldl
        (fun gs2 kv =>
          addInst gs2 kv.1 ⟨doc.filename, doc.docId, doc.filePath, kv.2, kv.1⟩)
        gs)
    []

/-- The ordered pairs `i < j` visited by the double loop of
`_detect_clause_contradictions`. -/
def pairsOf : List ClauseInst → List (ClauseInst × ClauseInst)
  | [] => []
  | a :: rest => rest.map (fun b => (a, b)) ++ pairsOf rest

/-- One document reference inside a contradiction record. -/
structure DocRef where
  filename : String
  docId : Option Nat
  value : PyVal
deriving DecidableEq

/-- A contradiction record (the comparator evidence map is not modelled; no
claim reads it).  `id` is 0 until `_prioritize_contradictions` assigns it. -/
structure Contra where
  clauseType : String
  severity : String
  description : String
  documents : List DocRef
  summary : String
  id : Nat
deriving DecidableEq

/-- `_generate_contradiction_summary`. -/
def genSummary (c1 c2 : ClauseInst) (ct : String) : String :=
  String.mk
    (titleCase (underscoreToSpace ct.toList) ++ ':' :: ' ' :: quoteChar ::
      pyStrL c1.value ++ quoteChar :: " in ".toList ++ c1.filename.toList ++
      " vs ".toList ++ quoteChar :: pyStrL c2.value ++ quoteChar ::
      " in ".toList ++ c2.filename.toList)

/-- `_detect_clause_contradictions`. -/
def detectClause (ct : String) (insts : List ClauseInst) : List Contra :=
  let rules := contradictionRules ct
  (pairsOf insts).filterMap fun p =>
    if (compareClauseValues p.1.value p.2.value rules.comparisonType).differs then
      some
        ⟨ct, rules.severity, rules.description,
          [⟨p.1.filename, p.1.docId, p.1.value⟩,
           ⟨p.2.filename, p.2.docId, p.2.value⟩],
          genSummary p.1 p.2 ct, 0⟩
    else none

/-- The `severity_order.get(..., 3)` ranking of
`_prioritize_contradictions`. -/
def sevRank (s : String) : Nat :=
  if s = "critical" then 0
  else if s = "high" then 1
  else if s = "medium" then 2
  else if s = "low" then 3
  else 3

/-- The sort key order of `_prioritize_contradictions`: severity rank, then
clause type name (code-point lexicographic, as Python tuple comparison). -/
def contraLe (a b : Contra) : Prop :=
  sevRank a.severity < sevRank b.severity ∨
    (sevRank a.severity = sevRank b.severity ∧
      a.clauseType.toList ≤ b.clauseType.toList)

instance : DecidableRel contraLe := fun a b => by
  unfold contraLe
  infer_instance

instance : IsTotal Contra contraLe := by
  constructor
  intro a b
  unfold contraLe
  rcases lt_trichotomy (sevRank a.severity) (sevRank b.severity) with h | h | h
  · exact Or.inl (Or.inl h)
  · rcases le_total a.clauseType.toList b.clauseType.toList with hle | hle
    · exact Or.inl (Or.inr ⟨h, hle⟩)
    · exact Or.inr (Or.inr ⟨h.symm, hle⟩)
  · exact Or.inr (Or.inl h)

instance : IsTrans Contra contraLe := by
  constructor
  intro a b c hab hbc
  unfold contraLe at *
  rcases hab with h1 | ⟨e1, l1⟩ <;> rcases hbc with h2 | ⟨e2, l2⟩
  · exact Or.inl (h1.trans h2)
  · exact Or.inl (e2 ▸ h1)
  · exact Or.inl (e1 ▸ h2)
  · exact Or.inr ⟨e1.trans e2, l1.trans l2⟩

/-- `list.sort(key=...)`: Python's sort is stable, and a stable
ascending-by-key sort is unique, so insertion sort with the key order models
it exactly (Mathlib's `orderedInsert` places an element before the first one
it is `≤`, i.e. after existing equal keys — the stable placement). -/
def sortContras (l : List Contra) : List Contra := List.insertionSort contraLe l

/-- The id-assignment loop (`enumerate(contradictions, 1)`). -/
def assignIds : Nat → List Contra → List Contra
  | _, [] => []
  | n, c :: t => { c with id := n } :: assignIds (n + 1) t

/-- `_prioritize_contradictions`. -/
def prioritizeContradictions (l : List Contra) : List Contra :=
  assignIds 1 (sortContras l)

/-- `detect_contradictions`. -/
def detectContradictions (docs : List PyDoc) : List Contra :=
  if docs.length < 2 then []
  else
    prioritizeContradictions
      ((groupClauses docs).flatMap fun g =>
        if 2 ≤ g.2.length then detectClause g.1 g.2 else [])

/-- Worker computing the maximal word-character runs of a string (the spans a
word-boundary-anchored all-word-character pattern can match); `acc` holds the
reversed current run. -/
def wordRunsGo : List Char → List Char → List (List Char)
  | acc, [] => if acc = [] then [] else [acc.reverse]
  | acc, c :: t =>
    if isWordChar c then wordRunsGo (c :: acc) t
    else (if acc = [] then [] else [acc.reverse]) ++ wordRunsGo [] t

/-- The maximal word-character runs of a string, in order. -/
def wordRuns (l : List Char) : List (List Char) := wordRunsGo [] l

/-- Adjacent-pair whitespace check: the head of `t` and `c` are not both
whitespace. -/
def wsPairOk (c : Char) : List Char → Bool
  | [] => true
  | d :: _ => !(isWs c && isWs d)

/-- Invariant of whitespace-collapsed text: every whitespace character is a
plain space and no two adjacent characters are both whitespace. -/
def okWsB : List Char → Bool
  | [] => true
  | c :: t => (!isWs c || c == ' ') && wsPairOk c t && okWsB t

/-- The head character (if any) is not whitespace. -/
def noWsHead : List Char → Prop
  | [] => True
  | c :: _ => isWs c = false

/-- The head character (if any) is not a word character. -/
def noWordHead : List Char → Prop
  | [] => True
  | c :: _ => isWordChar c = false

/-- The self-conflict condition of the semantic comparator: the normalized
text contains both members of some conflicting pair (e.g. any text containing
`without` also contains `with` as a substring), which makes the comparator
flag a value against itself. -/
def selfConflict (v : PyVal) : Prop :=
  hasConflict (stripL (lowerL (pyStrL v))) (stripL (lowerL (pyStrL v))) = true

/-- Example document for the sort/id scenario: three clause types whose pair
comparisons yield severities [medium, critical, high] in collection order. -/
def exDocA : PyDoc :=
  ⟨"a.pdf", none, none,
    [("working_hours", .s "9 am to 5 pm"), ("salary", .s "100"),
     ("notice_period", .s "30 days")]⟩

/-- Second example document for the sort/id scenario. -/
def exDocB : PyDoc :=
  ⟨"b.pdf", none, none,
    [("working_hours", .s "8 am to 6 pm"), ("salary", .s "200"),
     ("notice_period", .s "2 weeks")]⟩

/-! ### General helper lemmas -/

theorem ne_decide_comm {α : Type} [DecidableEq α] (a b : α) :
    decide (a ≠ b) = decide (b ≠ a) :=
  decide_eq_decide.mpr ne_comm

theorem list_any_congr {α : Type} (l : List α) (f g : α → Bool)
    (h : ∀ x, f x = g x) : l.any f = l.any g := by
  induction l with
  | nil => rfl
  | cons x t ih => simp [List.any, h, ih]

theorem eqB_self (q : PyFloat) : q.eqB q = true := by
  simp [PyFloat.eqB]

theorem eqB_comm (a b : PyFloat) : a.eqB b = b.eqB a :=
  decide_eq_decide.mpr eq_comm

/-! ### C5: fewer than two documents -/

/-- C5: `detect_contradictions` returns the empty list on an empty document
list and on any single-document list. -/
theorem c5_min_documents :
    detectContradictions [] = [] ∧ ∀ d, detectContradictions [d] = [] :=
  ⟨rfl, fun _ => rfl⟩

/-! ### C9: numeric equivalence class -/

/-- C9: `"$75,000"`, `"75000"` and `"75K"` all parse to exactly 75000.0, and
every pair drawn from them yields `differs = false` under the numeric
comparator. -/
theorem c9_numeric_equivalence :
    extractNumber (.s "$75,000") = some ⟨75000, 1⟩ ∧
    extractNumber (.s "75000") = some ⟨75000, 1⟩ ∧
    extractNumber (.s "75K") = some ⟨75000, 1⟩ ∧
    (["$75,000", "75000", "75K"].all fun a =>
      ["$75,000", "75000", "75K"].all fun b =>
        !(compareClauseValues (.s a) (.s b) "numeric").differs) = true := by
  decide

/-! ### C6: comparator exceptions are caught -/

/-- C6: the `_compare_clause_values` wrapper converts any comparator
exception into `differs = false` with the message recorded as `error`
evidence, and the real comparison function is exactly this wrapper around the
comparator dispatch (so no exception crosses the boundary). -/
theorem c6_exception_fail_safe :
    (∀ run (v1 v2 : PyVal) (t : String) (e : String),
        run v1 v2 t = Except.error e →
        compareWith run v1 v2 t = ⟨false, some e⟩) ∧
    ∀ (v1 v2 : PyVal) (t : String),
        compareClauseValues v1 v2 t = compareWith comparatorRun v1 v2 t := by
  constructor
  · intro run v1 v2 t e h
    simp [compareWith, h]
  · intro v1 v2 t
    rfl

theorem c6_witness :
    compareWith (fun _ _ _ => Except.error "boom") (.s "a") (.s "b") "numeric"
      = ⟨false, some "boom"⟩ :=
  c6_exception_fail_safe.1 _ _ _ _ _ rfl

/-! ### C3: numeric fallback is case-sensitive, not lowercase -/

/-- C3 counterexample: on two values that both fail the numeric parse, the
comparator flags `differs = true` even though their lowercased stripped forms
are equal — the fallback does not lowercase. -/
theorem c3_counterexample :
    (compareClauseValues (.s "abc") (.s "ABC") "numeric").differs = true ∧
    lowerL (stripL (pyStrL (.s "abc"))) = lowerL (stripL (pyStrL (.s "ABC"))) := by
  decide

/-- C3 amended: whenever either side fails the numeric parse, `differs`
equals exact case-sensitive stripped text inequality of the raw values. -/
theorem c3_fallback_amended (v1 v2 : PyVal)
    (h : extractNumber v1 = none ∨ extractNumber v2 = none) :
    (compareClauseValues v1 v2 "numeric").differs =
      decide (stripL (pyStrL v1) ≠ stripL (pyStrL v2)) := by
  have hd : compareClauseValues v1 v2 "numeric" =
      ⟨numericDiffers v1 v2, none⟩ := rfl
  rw [hd]
  rcases h with h | h
  · simp [numericDiffers, h]
  · cases h1 : extractNumber v1 <;> simp [numericDiffers, h, h1]

theorem c3_witness :
    extractNumber (.s "hello") = none ∧
    (compareClauseValues (.s "hello") (.s "world") "numeric").differs =
      decide (stripL (pyStrL (.s "hello")) ≠ stripL (pyStrL (.s "world"))) :=
  ⟨by decide, c3_fallback_amended _ _ (Or.inl (by decide))⟩

/-! ### Reflexivity of the individual comparators -/

theorem durationDiffers_self (v : PyVal) : durationDiffers v v = false := by
  cases h : parseDuration v <;> simp [durationDiffers, h]

theorem timeRangeDiffers_self (v : PyVal) : timeRangeDiffers v v = false := by
  cases h : parseTimeRange v <;> simp [timeRangeDiffers, h]

theorem numericDiffers_self (v : PyVal) : numericDiffers v v = false := by
  cases h : extractNumber v <;> simp [numericDiffers, h, eqB_self]

theorem datetimeDiffers_self (v : PyVal) : datetimeDiffers v v = false := by
  simp [datetimeDiffers]

theorem textExactDiffers_self (v : PyVal) : textExactDiffers v v = false := by
  simp [textExactDiffers]

theorem dateListDiffers_self (v : PyVal) : dateListDiffers v v = false := by
  cases v <;> simp [dateListDiffers, textExactDiffers]

theorem splitWsGo_ne_nil (l : List Char) :
    ∀ acc, acc ≠ [] → splitWsGo acc l ≠ [] := by
  induction l with
  | nil => intro acc h; simp [splitWsGo, h]
  | cons c t ih =>
    intro acc h
    by_cases hc : isWs c
    · simp [splitWsGo, hc, h]
    · simpa [splitWsGo, hc] using ih (c :: acc) (by simp)

theorem noWsHead_lstripL (l : List Char) : noWsHead (lstripL l) := by
  induction l with
  | nil => trivial
  | cons c t ih =>
    by_cases hc : isWs c
    · simpa [lstripL, List.dropWhile_cons, hc] using ih
    · simp [lstripL, List.dropWhile_cons, hc, noWsHead]

theorem noWsHead_rstripL (l : List Char) (h : noWsHead l) :
    noWsHead (rstripL l) := by
  cases l with
  | nil => trivial
  | cons c t =>
    rw [rstripL]
    split
    · trivial
    · exact h

theorem noWsHead_stripL (l : List Char) : noWsHead (stripL l) :=
  noWsHead_rstripL _ (noWsHead_lstripL l)

theorem similarity_self_ltB (t : List Char) (hh : noWsHead t) :
    (similarity t t).ltB ⟨1, 2⟩ = false := by
  by_cases h0 : t = []
  · subst h0; decide
  · have hs : splitWsL t ≠ [] := by
      cases t with
      | nil => exact absurd rfl h0
      | cons c t2 =>
        have hc : isWs c = false := hh
        simpa [splitWsL, splitWsGo, hc] using splitWsGo_ne_nil t2 [c] (by simp)
    simp only [similarity, h0, and_self, or_self, if_false, if_neg h0,
      Finset.union_self, Finset.inter_self]
    split
    · next hemp =>
      exact absurd (List.toFinset_eq_empty_iff _ |>.mp hemp) hs
    · simp [PyFloat.ltB]
      omega

/-! ### C1: reflexivity -/

/-- C1 counterexample: the semantic comparator flags an identical pair of
strings as differing — the text contains `without`, hence also the substring
`with`, so the `('with','without')` conflicting pair fires against itself. -/
theorem c1_counterexample :
    (compareClauseValues (.s "terminate without cause")
        (.s "terminate without cause") "text_semantic").differs = true := by
  decide

/-- C1 amended: feeding the same value to both sides yields
`differs = false` for every comparison type except `text_semantic`, and for
`text_semantic` whenever the normalized text does not contain both members of
a conflicting pair. -/
theorem c1_reflexivity_amended :
    (∀ (v : PyVal) (t : String), t ≠ "text_semantic" →
        (compareClauseValues v v t).differs = false) ∧
    (∀ v : PyVal, ¬ selfConflict v →
        (compareClauseValues v v "text_semantic").differs = false) := by
  constructor
  · intro v t ht
    show comparatorDiffers v v t = false
    unfold comparatorDiffers
    split_ifs
    all_goals
      first
        | exact durationDiffers_self v
        | exact timeRangeDiffers_self v
        | exact numericDiffers_self v
        | exact datetimeDiffers_self v
        | exact dateListDiffers_self v
        | exact textExactDiffers_self v
  · intro v hv
    show comparatorDiffers v v "text_semantic" = false
    have hsem : comparatorDiffers v v "text_semantic" = semanticDiffers v v := rfl
    rw [hsem]
    unfold semanticDiffers
    rw [if_neg (by simpa [selfConflict] using hv)]
    exact similarity_self_ltB _ (noWsHead_stripL _)

theorem c1_witness :
    (compareClauseValues (.s "30 days") (.s "30 days") "time_duration").differs
        = false ∧
    (compareClauseValues (.s "hello world") (.s "hello world")
        "text_semantic").differs = false :=
  ⟨c1_reflexivity_amended.1 _ _ (by decide),
   c1_reflexivity_amended.2 _ (by unfold selfConflict; decide)⟩

/-! ### C7: commutativity -/

theorem durationDiffers_comm (v1 v2 : PyVal) :
    durationDiffers v1 v2 = durationDiffers v2 v1 := by
  unfold durationDiffers
  cases h1 : parseDuration v1 <;> cases h2 : parseDuration v2 <;>
    exact ne_decide_comm _ _

theorem timeRangeDiffers_comm (v1 v2 : PyVal) :
    timeRangeDiffers v1 v2 = timeRangeDiffers v2 v1 := by
  unfold timeRangeDiffers
  cases h1 : parseTimeRange v1 <;> cases h2 : parseTimeRange v2 <;>
    exact ne_decide_comm _ _

theorem numericDiffers_comm (v1 v2 : PyVal) :
    numericDiffers v1 v2 = numericDiffers v2 v1 := by
  unfold numericDiffers
  cases h1 : extractNumber v1 <;> cases h2 : extractNumber v2 <;>
    first
      | exact ne_decide_comm _ _
      | (rename_i n1 n2
         show (!n1.eqB n2) = !n2.eqB n1
         rw [eqB_comm])

theorem datetimeDiffers_comm (v1 v2 : PyVal) :
    datetimeDiffers v1 v2 = datetimeDiffers v2 v1 :=
  ne_decide_comm _ _

theorem textExactDiffers_comm (v1 v2 : PyVal) :
    textExactDiffers v1 v2 = textExactDiffers v2 v1 :=
  ne_decide_comm _ _

theorem dateListDiffers_comm (v1 v2 : PyVal) :
    dateListDiffers v1 v2 = dateListDiffers v2 v1 := by
  cases v1 <;> cases v2 <;>
    first
      | exact textExactDiffers_comm _ _
      | exact ne_decide_comm _ _

theorem pairHit_swap (t1 t2 : List Char) (p : List Char × List Char) :
    pairHit t1 t2 p = pairHit t2 t1 p := by
  have hb : ∀ a b c d : Bool, (a && b || (c && d)) = (d && c || (b && a)) := by
    decide
  unfold pairHit
  exact hb _ _ _ _

theorem hasConflict_comm (t1 t2 : List Char) :
    hasConflict t1 t2 = hasConflict t2 t1 :=
  list_any_congr _ _ _ (pairHit_swap t1 t2)

theorem similarity_comm (t1 t2 : List Char) :
    similarity t1 t2 = similarity t2 t1 := by
  unfold similarity
  by_cases h1 : t1 = [] <;> by_cases h2 : t2 = [] <;> simp [h1, h2]
  rw [Finset.union_comm, Finset.inter_comm]

theorem semanticDiffers_comm (v1 v2 : PyVal) :
    semanticDiffers v1 v2 = semanticDiffers v2 v1 := by
  show
    (if hasConflict (stripL (lowerL (pyStrL v1))) (stripL (lowerL (pyStrL v2)))
          = true then
        true
      else
        (similarity (stripL (lowerL (pyStrL v1)))
            (stripL (lowerL (pyStrL v2)))).ltB ⟨1, 2⟩) =
      (if hasConflict (stripL (lowerL (pyStrL v2)))
            (stripL (lowerL (pyStrL v1))) = true then
        true
      else
        (similarity (stripL (lowerL (pyStrL v2)))
            (stripL (lowerL (pyStrL v1)))).ltB ⟨1, 2⟩)
  rw [hasConflict_comm, similarity_comm]

/-- C7: the boolean `differs` result of `_compare_clause_values` is
commutative for every comparison type and every pair of values. -/
theorem c7_commutativity (v1 v2 : PyVal) (t : String) :
    (compareClauseValues v1 v2 t).differs =
      (compareClauseValues v2 v1 t).differs := by
  show comparatorDiffers v1 v2 t = comparatorDiffers v2 v1 t
  unfold comparatorDiffers
  split_ifs
  exacts [durationDiffers_comm v1 v2, timeRangeDiffers_comm v1 v2,
    numericDiffers_comm v1 v2, datetimeDiffers_comm v1 v2,
    dateListDiffers_comm v1 v2, semanticDiffers_comm v1 v2,
    textExactDiffers_comm v1 v2]

/-! ### C4: sorting and id assignment -/

theorem mem_assignIds {b : Contra} :
    ∀ (n : Nat) (l : List Contra), b ∈ assignIds n l →
      ∃ a ∈ l, b.severity = a.severity ∧ b.clauseType = a.clauseType := by
  intro n l
  induction l generalizing n with
  | nil => intro h; simp [assignIds] at h
  | cons c t ih =>
    intro h
    simp only [assignIds, List.mem_cons] at h
    rcases h with h | h
    · exact ⟨c, List.mem_cons_self c t, by rw [h], by rw [h]⟩
    · obtain ⟨a, ha, h1, h2⟩ := ih (n + 1) h
      exact ⟨a, List.mem_cons_of_mem _ ha, h1, h2⟩

theorem contraLe_of_fields {a b a2 b2 : Contra} (h : contraLe a b)
    (ha1 : a2.severity = a.severity) (ha2 : a2.clauseType = a.clauseType)
    (hb1 : b2.severity = b.severity) (hb2 : b2.clauseType = b.clauseType) :
    contraLe a2 b2 := by
  unfold contraLe at *
  rw [ha1, ha2, hb1, hb2]
  exact h

theorem pairwise_assignIds :
    ∀ (n : Nat) (l : List Contra), l.Pairwise contraLe →
      (assignIds n l).Pairwise contraLe := by
  intro n l
  induction l generalizing n with
  | nil => intro _; simp [assignIds]
  | cons c t ih =>
    intro h
    rcases List.pairwise_cons.mp h with ⟨hc, ht⟩
    refine List.pairwise_cons.mpr ⟨?_, ih (n + 1) ht⟩
    intro b hb
    obtain ⟨a, ha, h1, h2⟩ := mem_assignIds _ _ hb
    exact contraLe_of_fields (hc a ha) rfl rfl h1 h2

theorem ids_assignIds :
    ∀ (n : Nat) (l : List Contra),
      (assignIds n l).map (fun c => c.id) = List.range' n l.length := by
  intro n l
  induction l generalizing n with
  | nil => rfl
  | cons c t ih => simp [assignIds, List.range'_succ, ih]

theorem length_assignIds :
    ∀ (n : Nat) (l : List Contra), (assignIds n l).length = l.length := by
  intro n l
  induction l generalizing n with
  | nil => rfl
  | cons c t ih => simp [assignIds, ih]

/-- C4: `detect_contradictions` always delivers its output sorted ascending
by (severity rank under critical < high < medium < low, then clause-type
name), with sequential 1-based ids assigned after the sort; on two example
documents producing severities [medium, critical, high] in collection order,
the output is [critical(id 1), high(id 2), medium(id 3)]. -/
theorem c4_sort_and_ids :
    (∀ docs : List PyDoc,
        (detectContradictions docs).Pairwise contraLe ∧
        (detectContradictions docs).map (fun c => c.id) =
          List.range' 1 (detectContradictions docs).length) ∧
    (detectContradictions [exDocA, exDocB]).map
        (fun c => (c.severity, c.clauseType, c.id)) =
      [("critical", "salary", 1), ("high", "notice_period", 2),
       ("medium", "working_hours", 3)] := by
  constructor
  · intro docs
    unfold detectContradictions prioritizeContradictions sortContras
    split
    · simp
    · refine ⟨pairwise_assignIds 1 _ (List.sorted_insertionSort contraLe _), ?_⟩
      rw [ids_assignIds, length_assignIds]
  · decide

/-! ### C8: notice-period pluralization -/

theorem findDur_exists_try :
    ∀ (l : List Char) (m : List Char × List Char), findDur l = some m →
      ∃ l2, tryDurAt l2 = some m := by
  intro l
  induction l with
  | nil => intro m h; simp [findDur] at h
  | cons c t ih =>
    intro m h
    rw [findDur] at h
    cases ht : tryDurAt (c :: t) with
    | some m2 =>
      rw [ht] at h
      exact ⟨c :: t, ht.trans h⟩
    | none =>
      rw [ht] at h
      exact ih m h

theorem tryDurAt_unit {l d u : List Char} (h : tryDurAt l = some (d, u)) :
    ∃ l2, matchUnit l2 = some u := by
  unfold tryDurAt at h
  by_cases h1 : takeDigits l = []
  · simp [h1] at h
  · by_cases h2 : (dropDigits l).takeWhile isWs = []
    · simp [h1, h2] at h
    · simp only [h1, h2, if_neg, ite_false] at h
      rw [Option.map_eq_some'] at h
      obtain ⟨u2, hu, heq⟩ := h
      have : u2 = u := congrArg Prod.snd heq
      exact ⟨(dropDigits l).dropWhile isWs, this ▸ hu⟩

theorem matchUnitWord_shape {stem : String} {l u : List Char}
    (h : matchUnitWord stem l = some u) :
    lowerL u = stem.toList ∨ lowerL u = stem.toList ++ ['s'] := by
  unfold matchUnitWord at h
  by_cases h1 : lowerL (l.take stem.length) = stem.toList
  · rw [if_pos h1] at h
    cases hd : l.drop stem.length with
    | nil =>
      rw [hd] at h
      injection h with h
      exact Or.inl (h ▸ h1)
    | cons c r =>
      rw [hd] at h
      dsimp only at h
      by_cases hc : c.toLower = 's'
      · simp only [hc, beq_self_eq_true, if_true] at h
        injection h with h
        right
        have hstep : lowerL (l.take stem.length ++ [c]) =
            lowerL (l.take stem.length) ++ [c.toLower] := by
          simp [lowerL]
        rw [← h, hstep, h1, hc]
      · have hcb : (c.toLower == 's') = false := by
          simpa using hc
        rw [hcb] at h
        simp only [Bool.false_eq_true, if_false] at h
        injection h with h
        exact Or.inl (h ▸ h1)
  · rw [if_neg h1] at h
    exact Option.noConfusion h

theorem matchUnit_shape {l u : List Char} (h : matchUnit l = some u) :
    (lowerL u = "day".toList ∨ lowerL u = "day".toList ++ ['s']) ∨
    (lowerL u = "week".toList ∨ lowerL u = "week".toList ++ ['s']) ∨
    (lowerL u = "month".toList ∨ lowerL u = "month".toList ++ ['s']) := by
  unfold matchUnit at h
  cases h1 : matchUnitWord "day" l with
  | some u2 =>
    rw [h1] at h
    simp only [Option.orElse] at h
    injection h with h
    exact Or.inl (matchUnitWord_shape (h ▸ h1))
  | none =>
    rw [h1] at h
    simp only [Option.orElse] at h
    cases h2 : matchUnitWord "week" l with
    | some u2 =>
      rw [h2] at h
      simp only [Option.orElse] at h
      injection h with h
      exact Or.inr (Or.inl (matchUnitWord_shape (h ▸ h2)))
    | none =>
      rw [h2] at h
      simp only [Option.orElse] at h
      exact Or.inr (Or.inr (matchUnitWord_shape h))

/-- C8 counterexample: a matched count of 0 is rendered with a singular unit
(`"0 day"`), not the plural the claim requires for every n other than 1. -/
theorem c8_counterexample :
    extractNoticePeriod "0 days notice".toList = "0 day".toList ∧
    "0 day".toList ≠ "0 days".toList := by
  decide

/-- C8 amended: for every raw match yielding a digit string and a unit, the
normalized value is the digit string, a space, and the unit stem, pluralized
exactly when the integer value exceeds 1 (so singular for 0 and 1). -/
theorem c8_notice_pluralization_amended (text d u : List Char)
    (h : findDur text = some (d, u)) :
    ∃ base ∈ [("day".toList : List Char), "week".toList, "month".toList],
      (lowerL u = base ∨ lowerL u = base ++ ['s']) ∧
      extractNoticePeriod text =
        d ++ ' ' :: (base ++ if 1 < digitsVal d then ['s'] else []) := by
  have hext : extractNoticePeriod text =
      d ++ ' ' ::
        (rstripS (lowerL u) ++ if 1 < digitsVal d then ['s'] else []) := by
    unfold extractNoticePeriod
    rw [h]
  obtain ⟨l1, ht⟩ := findDur_exists_try text (d, u) h
  obtain ⟨l2, hu⟩ := tryDurAt_unit ht
  rcases matchUnit_shape hu with (he | he) | (he | he) | (he | he)
  · exact ⟨"day".toList, by simp, Or.inl he, by rw [hext, he]; rfl⟩
  · exact ⟨"day".toList, by simp, Or.inr he, by rw [hext, he]; rfl⟩
  · exact ⟨"week".toList, by simp, Or.inl he, by rw [hext, he]; rfl⟩
  · exact ⟨"week".toList, by simp, Or.inr he, by rw [hext, he]; rfl⟩
  · exact ⟨"month".toList, by simp, Or.inl he, by rw [hext, he]; rfl⟩
  · exact ⟨"month".toList, by simp, Or.inr he, by rw [hext, he]; rfl⟩

theorem c8_witness :
    ∃ base ∈ [("day".toList : List Char), "week".toList, "month".toList],
      (lowerL "days".toList = base ∨ lowerL "days".toList = base ++ ['s']) ∧
      extractNoticePeriod "30 days notice".toList =
        "30".toList ++ ' ' ::
          (base ++ if 1 < digitsVal "30".toList then ['s'] else []) :=
  c8_notice_pluralization_amended _ _ _ (by decide)

/-! ### C10: post-processing length filters -/

/-- C10: in `_post_process_clauses`, every entry of a surviving list value
has length at least 3, while a scalar whose cleaned form has length exactly 2
is kept. -/
theorem c10_length_filters :
    (∀ (clauses : List (String × PyVal)) (k : String) (es : List String),
        (k, PyVal.l es) ∈ postProcessClauses clauses →
          ∀ e ∈ es, 3 ≤ e.length) ∧
    (∀ (clauses : List (String × PyVal)) (k : String) (str : String),
        (k, PyVal.s str) ∈ clauses → (cleanScalar str).length = 2 →
        (k, PyVal.s (String.mk (cleanScalar str))) ∈
          postProcessClauses clauses) := by
  constructor
  · intro clauses k es hmem e he
    rw [postProcessClauses, List.mem_filterMap] at hmem
    obtain ⟨kv, hin, heq⟩ := hmem
    obtain ⟨k2, v2⟩ := kv
    cases v2 with
    | s str =>
      rw [postEntry] at heq
      split at heq <;> simp at heq
    | l xs =>
      rw [postEntry] at heq
      split at heq
      · simp at heq
      · simp only [Option.some.injEq, Prod.mk.injEq, PyVal.l.injEq] at heq
        obtain ⟨hk, hv⟩ := heq
        subst hv
        rw [List.mem_map] at he
        obtain ⟨x, hx, hxe⟩ := he
        rw [List.mem_filter] at hx
        obtain ⟨hx1, hx2⟩ := hx
        have hlen := (of_decide_eq_true hx2).2
        rw [← hxe]
        show 3 ≤ x.length
        omega
  · intro clauses k str hin hlen
    rw [postProcessClauses, List.mem_filterMap]
    refine ⟨(k, .s str), hin, ?_⟩
    rw [postEntry]
    simp [hlen]

theorem c10_witness :
    (∀ e ∈ (["01/02/2023"] : List String), 3 ≤ e.length) ∧
    ("k", PyVal.s "ab") ∈
      postProcessClauses
        [("dates", PyVal.l ["01/02/2023", "x"]), ("k", PyVal.s " ab ")] := by
  constructor
  · exact c10_length_filters.1
      [("dates", PyVal.l ["01/02/2023", "x"]), ("k", PyVal.s " ab ")]
      "dates" ["01/02/2023"] (by decide)
  · exact c10_length_filters.2
      [("dates", PyVal.l ["01/02/2023", "x"]), ("k", PyVal.s " ab ")]
      "k" " ab " (by decide) (by decide)

/-! ### C2: normalizer idempotence — character and run infrastructure -/

theorem wordChar_not_ws {c : Char} (h : isWordChar c = true) : isWs c = false := by
  cases hws : isWs c
  · rfl
  · exfalso
    have hc : ((((c = ' ' ∨ c = '\t') ∨ c = '\n') ∨ c = '\r') ∨ c = '\x0b') ∨
        c = '\x0c' := by
      simpa [isWs] using hws
    rcases hc with ((((h1 | h1) | h1) | h1) | h1) | h1 <;> subst h1 <;>
      exact absurd h (by decide)

theorem ws_not_word {c : Char} (h : isWs c = true) : isWordChar c = false := by
  cases hw : isWordChar c
  · rfl
  · rw [wordChar_not_ws hw] at h
    exact absurd h (by simp)

theorem lengthDropWhileLe (p : Char → Bool) (l : List Char) :
    (l.dropWhile p).length ≤ l.length := by
  induction l with
  | nil => simp
  | cons c t ih =>
    rw [List.dropWhile_cons]
    split
    · exact ih.trans (Nat.le_succ _)
    · exact le_rfl

theorem takeWhile_append_all {p : Char → Bool} {m : List Char}
    (hm : ∀ c ∈ m, p c = true) (rest : List Char) :
    (m ++ rest).takeWhile p = m ++ rest.takeWhile p := by
  induction m with
  | nil => simp
  | cons x m2 ih =>
    have hx : p x = true := hm x (List.mem_cons_self x m2)
    simp only [List.cons_append, List.takeWhile_cons, hx, if_true]
    rw [ih fun c hc => hm c (List.mem_cons_of_mem _ hc)]

theorem dropWhile_append_all {p : Char → Bool} {m : List Char}
    (hm : ∀ c ∈ m, p c = true) (rest : List Char) :
    (m ++ rest).dropWhile p = rest.dropWhile p := by
  induction m with
  | nil => simp
  | cons x m2 ih =>
    have hx : p x = true := hm x (List.mem_cons_self x m2)
    simp only [List.cons_append, List.dropWhile_cons, hx, if_true]
    exact ih fun c hc => hm c (List.mem_cons_of_mem _ hc)

theorem takeWhile_noWordHead {rest : List Char} (h : noWordHead rest) :
    rest.takeWhile isWordChar = [] := by
  cases rest with
  | nil => rfl
  | cons d r =>
    have hd : isWordChar d = false := h
    simp [List.takeWhile_cons, hd]

theorem dropWhile_noWordHead {rest : List Char} (h : noWordHead rest) :
    rest.dropWhile isWordChar = rest := by
  cases rest with
  | nil => rfl
  | cons d r =>
    have hd : isWordChar d = false := h
    simp [List.dropWhile_cons, hd]

theorem subWordsGo_acc (f : List Char → List Char) :
    ∀ (l acc : List Char), acc ≠ [] →
      subWordsGo f acc l =
        f (acc.reverse ++ l.takeWhile isWordChar) ++
          subWordsGo f [] (l.dropWhile isWordChar) := by
  intro l
  induction l with
  | nil => intro acc h; simp [subWordsGo, h]
  | cons c t ih =>
    intro acc h
    by_cases hw : isWordChar c
    · rw [subWordsGo, if_pos hw, ih (c :: acc) (by simp)]
      simp [List.takeWhile_cons, List.dropWhile_cons, hw, List.reverse_cons,
        List.append_assoc]
    · rw [subWordsGo, if_neg hw, if_neg h]
      have h2 : subWordsGo f [] (c :: t) = c :: subWordsGo f [] t := by
        rw [subWordsGo, if_neg hw, if_pos rfl]
        rfl
      simp [List.takeWhile_cons, List.dropWhile_cons, hw, h2]

theorem subWords_cons_nword (f : List Char → List Char) {c : Char}
    {t : List Char} (h : isWordChar c = false) :
    subWords f (c :: t) = c :: subWords f t := by
  rw [subWords, subWordsGo, if_neg (by simp [h]), if_pos rfl]
  rfl

theorem subWords_cons_word (f : List Char → List Char) {c : Char}
    {t : List Char} (h : isWordChar c = true) :
    subWords f (c :: t) =
      f (c :: t.takeWhile isWordChar) ++ subWords f (t.dropWhile isWordChar) := by
  rw [subWords, subWordsGo, if_pos h, subWordsGo_acc f t [c] (by simp)]
  rfl

theorem wordRunsGo_acc :
    ∀ (l acc : List Char), acc ≠ [] →
      wordRunsGo acc l =
        (acc.reverse ++ l.takeWhile isWordChar) ::
          wordRunsGo [] (l.dropWhile isWordChar) := by
  intro l
  induction l with
  | nil => intro acc h; simp [wordRunsGo, h]
  | cons c t ih =>
    intro acc h
    by_cases hw : isWordChar c
    · rw [wordRunsGo, if_pos hw, ih (c :: acc) (by simp)]
      simp [List.takeWhile_cons, List.dropWhile_cons, hw, List.reverse_cons,
        List.append_assoc]
    · rw [wordRunsGo, if_neg hw, if_neg h]
      have h2 : wordRunsGo [] (c :: t) = wordRunsGo [] t := by
        rw [wordRunsGo, if_neg hw, if_pos rfl]
        rfl
      simp [List.takeWhile_cons, List.dropWhile_cons, hw, h2]

theorem wordRuns_cons_nword {c : Char} {t : List Char}
    (h : isWordChar c = false) : wordRuns (c :: t) = wordRuns t := by
  rw [wordRuns, wordRunsGo, if_neg (by simp [h]), if_pos rfl]
  rfl

theorem wordRuns_cons_word {c : Char} {t : List Char} (h : isWordChar c = true) :
    wordRuns (c :: t) =
      (c :: t.takeWhile isWordChar) :: wordRuns (t.dropWhile isWordChar) := by
  rw [wordRuns, wordRunsGo, if_pos h, wordRunsGo_acc t [c] (by simp)]
  rfl

theorem wordRuns_mem_aux :
    ∀ (n : Nat) (l : List Char), l.length ≤ n → ∀ r ∈ wordRuns l,
      r ≠ [] ∧ ∀ c ∈ r, isWordChar c = true := by
  intro n
  induction n with
  | zero =>
    intro l hl r hr
    rw [List.eq_nil_of_length_eq_zero (Nat.le_zero.mp hl)] at hr
    simp [wordRuns, wordRunsGo] at hr
  | succ n ih =>
    intro l hl r hr
    cases l with
    | nil => simp [wordRuns, wordRunsGo] at hr
    | cons c t =>
      have hlt : t.length ≤ n := Nat.le_of_succ_le_succ (by simpa using hl)
      by_cases hw : isWordChar c = true
      · rw [wordRuns_cons_word hw] at hr
        rcases List.mem_cons.mp hr with h | h
        · subst h
          refine ⟨by simp, ?_⟩
          intro x hx
          rcases List.mem_cons.mp hx with h1 | h1
          · exact h1 ▸ hw
          · exact List.mem_takeWhile_imp h1
        · exact ih (t.dropWhile isWordChar)
            ((lengthDropWhileLe _ _).trans hlt) r h
      · have hwf : isWordChar c = false := by simpa using hw
        rw [wordRuns_cons_nword hwf] at hr
        exact ih t hlt r hr

theorem wordRuns_mem {l r : List Char} (hr : r ∈ wordRuns l) :
    r ≠ [] ∧ ∀ c ∈ r, isWordChar c = true :=
  wordRuns_mem_aux l.length l le_rfl r hr

theorem wordRuns_eq_nil {l : List Char}
    (h : ∀ c ∈ l, isWordChar c = false) : wordRuns l = [] := by
  induction l with
  | nil => rfl
  | cons c t ih =>
    rw [wordRuns_cons_nword (h c (List.mem_cons_self c t))]
    exact ih fun x hx => h x (List.mem_cons_of_mem _ hx)

theorem noWordHead_subWords (f : List Char → List Char) {l : List Char}
    (h : noWordHead l) : noWordHead (subWords f l) := by
  cases l with
  | nil => trivial
  | cons c t =>
    have hd : isWordChar c = false := h
    rw [subWords_cons_nword f hd]
    exact hd

theorem noWordHead_dropWhileWord (l : List Char) :
    noWordHead (l.dropWhile isWordChar) := by
  induction l with
  | nil => trivial
  | cons c t ih =>
    rw [List.dropWhile_cons]
    split
    · exact ih
    · next hw => simpa [noWordHead] using hw

theorem wordRuns_append_run {m rest : List Char} (hm : m ≠ [])
    (hw : ∀ c ∈ m, isWordChar c = true) (hrest : noWordHead rest) :
    wordRuns (m ++ rest) = m :: wordRuns rest := by
  cases m with
  | nil => exact absurd rfl hm
  | cons a m2 =>
    have ha : isWordChar a = true := hw a (List.mem_cons_self a m2)
    rw [List.cons_append, wordRuns_cons_word ha,
      takeWhile_append_all (fun c hc => hw c (List.mem_cons_of_mem _ hc)) rest,
      takeWhile_noWordHead hrest,
      dropWhile_append_all (fun c hc => hw c (List.mem_cons_of_mem _ hc)) rest,
      dropWhile_noWordHead hrest, List.append_nil]

theorem subWords_fix_aux :
    ∀ (n : Nat) (f : List Char → List Char) (l : List Char), l.length ≤ n →
      (∀ r ∈ wordRuns l, f r = r) → subWords f l = l := by
  intro n
  induction n with
  | zero =>
    intro f l hl _
    rw [List.eq_nil_of_length_eq_zero (Nat.le_zero.mp hl)]
    rfl
  | succ n ih =>
    intro f l hl hfix
    cases l with
    | nil => rfl
    | cons c t =>
      have hlt : t.length ≤ n := Nat.le_of_succ_le_succ (by simpa using hl)
      by_cases hw : isWordChar c = true
      · rw [subWords_cons_word f hw,
          hfix _ (by rw [wordRuns_cons_word hw]; exact List.mem_cons_self _ _),
          ih f (t.dropWhile isWordChar) ((lengthDropWhileLe _ _).trans hlt)
            (fun r hr => hfix r
              (by rw [wordRuns_cons_word hw]; exact List.mem_cons_of_mem _ hr)),
          List.cons_append, List.takeWhile_append_dropWhile]
      · have hwf : isWordChar c = false := by simpa using hw
        rw [subWords_cons_nword f hwf,
          ih f t hlt (fun r hr => hfix r (by rwa [wordRuns_cons_nword hwf]))]

theorem subWords_fix {f : List Char → List Char} {l : List Char}
    (h : ∀ r ∈ wordRuns l, f r = r) : subWords f l = l :=
  subWords_fix_aux l.length f l le_rfl h

theorem wordRuns_subWords_aux (f : List Char → List Char)
    (hf : ∀ r, r ≠ [] → (∀ c ∈ r, isWordChar c = true) →
      f r ≠ [] ∧ ∀ c ∈ f r, isWordChar c = true) :
    ∀ (n : Nat) (l : List Char), l.length ≤ n →
      wordRuns (subWords f l) = (wordRuns l).map f := by
  intro n
  induction n with
  | zero =>
    intro l hl
    rw [List.eq_nil_of_length_eq_zero (Nat.le_zero.mp hl)]
    rfl
  | succ n ih =>
    intro l hl
    cases l with
    | nil => rfl
    | cons c t =>
      have hlt : t.length ≤ n := Nat.le_of_succ_le_succ (by simpa using hl)
      by_cases hw : isWordChar c = true
      · rw [subWords_cons_word f hw, wordRuns_cons_word hw]
        have hR : (c :: t.takeWhile isWordChar) ≠ [] ∧
            ∀ x ∈ c :: t.takeWhile isWordChar, isWordChar x = true := by
          refine ⟨by simp, ?_⟩
          intro x hx
          rcases List.mem_cons.mp hx with h1 | h1
          · exact h1 ▸ hw
          · exact List.mem_takeWhile_imp h1
        obtain ⟨hf1, hf2⟩ := hf _ hR.1 hR.2
        rw [wordRuns_append_run hf1 hf2
            (noWordHead_subWords f (noWordHead_dropWhileWord t)),
          List.map_cons,
          ih (t.dropWhile isWordChar) ((lengthDropWhileLe _ _).trans hlt)]
      · have hwf : isWordChar c = false := by simpa using hw
        rw [subWords_cons_nword f hwf, wordRuns_cons_nword hwf,
          wordRuns_cons_nword hwf, ih t hlt]

theorem wordRuns_subWords (f : List Char → List Char)
    (hf : ∀ r, r ≠ [] → (∀ c ∈ r, isWordChar c = true) →
      f r ≠ [] ∧ ∀ c ∈ f r, isWordChar c = true) (l : List Char) :
    wordRuns (subWords f l) = (wordRuns l).map f :=
  wordRuns_subWords_aux f hf l.length l le_rfl

theorem wordRuns_lstrip (l : List Char) : wordRuns (lstripL l) = wordRuns l := by
  induction l with
  | nil => rfl
  | cons c t ih =>
    by_cases hws : isWs c = true
    · have hwf : isWordChar c = false := ws_not_word hws
      have h1 : lstripL (c :: t) = lstripL t := by
        simp [lstripL, List.dropWhile_cons, hws]
      rw [h1, ih, wordRuns_cons_nword hwf]
    · have h1 : lstripL (c :: t) = c :: t := by
        simp [lstripL, List.dropWhile_cons, hws]
      rw [h1]

theorem rstrip_cases (c : Char) (t : List Char) :
    rstripL (c :: t) = [] ∨ rstripL (c :: t) = c :: rstripL t := by
  rw [rstripL]
  split
  · exact Or.inl rfl
  · exact Or.inr rfl

theorem rstrip_cons_of_not_ws {c : Char} (t : List Char) (h : isWs c = false) :
    rstripL (c :: t) = c :: rstripL t := by
  rw [rstripL, if_neg]
  rintro ⟨_, h2⟩
  rw [h] at h2
  exact absurd h2 (by simp)

theorem rstrip_nil_allWs :
    ∀ (l : List Char), rstripL l = [] → ∀ c ∈ l, isWs c = true := by
  intro l
  induction l with
  | nil => intro _ c hc; simp at hc
  | cons c t ih =>
    intro h x hx
    rw [rstripL] at h
    split at h
    · next hcond =>
      rcases List.mem_cons.mp hx with h1 | h1
      · exact h1 ▸ hcond.2
      · exact ih hcond.1 x h1
    · simp at h

theorem takeWhile_word_rstrip (l : List Char) :
    (rstripL l).takeWhile isWordChar = l.takeWhile isWordChar := by
  induction l with
  | nil => rfl
  | cons d t2 ih =>
    by_cases hw : isWordChar d = true
    · rw [rstrip_cons_of_not_ws t2 (wordChar_not_ws hw), List.takeWhile_cons,
        List.takeWhile_cons, if_pos hw, if_pos hw, ih]
    · have hwf : isWordChar d = false := by simpa using hw
      rcases rstrip_cases d t2 with h | h
      · rw [h]
        simp [List.takeWhile_cons, hwf]
      · rw [h]
        simp [List.takeWhile_cons, hwf]

theorem dropWhile_word_rstrip (l : List Char) :
    (rstripL l).dropWhile isWordChar = rstripL (l.dropWhile isWordChar) := by
  induction l with
  | nil => rfl
  | cons d t2 ih =>
    by_cases hw : isWordChar d = true
    · rw [rstrip_cons_of_not_ws t2 (wordChar_not_ws hw), List.dropWhile_cons,
        List.dropWhile_cons, if_pos hw, if_pos hw, ih]
    · have hwf : isWordChar d = false := by simpa using hw
      have hrhs : (d :: t2).dropWhile isWordChar = d :: t2 := by
        simp [List.dropWhile_cons, hwf]
      rw [hrhs]
      rcases rstrip_cases d t2 with h | h
      · rw [h]
        rfl
      · rw [h]
        simp [List.dropWhile_cons, hwf]

theorem wordRuns_rstrip_aux :
    ∀ (n : Nat) (l : List Char), l.length ≤ n →
      wordRuns (rstripL l) = wordRuns l := by
  intro n
  induction n with
  | zero =>
    intro l hl
    rw [List.eq_nil_of_length_eq_zero (Nat.le_zero.mp hl)]
    rfl
  | succ n ih =>
    intro l hl
    cases l with
    | nil => rfl
    | cons c t =>
      have hlt : t.length ≤ n := Nat.le_of_succ_le_succ (by simpa using hl)
      by_cases hw : isWordChar c = true
      · rw [rstrip_cons_of_not_ws t (wordChar_not_ws hw),
          wordRuns_cons_word hw, wordRuns_cons_word hw,
          takeWhile_word_rstrip, dropWhile_word_rstrip,
          ih (t.dropWhile isWordChar) ((lengthDropWhileLe _ _).trans hlt)]
      · have hwf : isWordChar c = false := by simpa using hw
        rcases rstrip_cases c t with h | h
        · rw [h, wordRuns_eq_nil
            (fun x hx => ws_not_word (rstrip_nil_allWs (c :: t) h x hx))]
          rfl
        · rw [h, wordRuns_cons_nword hwf, wordRuns_cons_nword hwf, ih t hlt]

theorem wordRuns_strip (l : List Char) : wordRuns (stripL l) = wordRuns l := by
  rw [stripL, wordRuns_rstrip_aux (lstripL l).length (lstripL l) le_rfl,
    wordRuns_lstrip]

theorem okWsB_cons {c : Char} {t : List Char} :
    okWsB (c :: t) = true ↔
      (isWs c = false ∨ c = ' ') ∧ wsPairOk c t = true ∧ okWsB t = true := by
  simp [okWsB, Bool.and_eq_true, Bool.or_eq_true, Bool.not_eq_true',
    and_assoc]

theorem okWsB_append_right :
    ∀ (a b : List Char), okWsB (a ++ b) = true → okWsB b = true := by
  intro a b
  induction a with
  | nil => exact id
  | cons x a2 ih =>
    intro h
    exact ih (okWsB_cons.mp h).2.2

theorem wsPairOk_append_trunc {x : Char} (a2 b : List Char)
    (h : wsPairOk x (a2 ++ b) = true) : wsPairOk x a2 = true := by
  cases a2 with
  | nil => rfl
  | cons y a3 => exact h

theorem okWsB_append_left :
    ∀ (a b : List Char), okWsB (a ++ b) = true → okWsB a = true := by
  intro a b
  induction a with
  | nil => intro _; rfl
  | cons x a2 ih =>
    intro h
    obtain ⟨h1, h2, h3⟩ := okWsB_cons.mp h
    exact okWsB_cons.mpr ⟨h1, wsPairOk_append_trunc a2 b h2, ih h3⟩

theorem okWsB_dropWhile (p : Char → Bool) {l : List Char}
    (h : okWsB l = true) : okWsB (l.dropWhile p) = true :=
  okWsB_append_right (l.takeWhile p) (l.dropWhile p)
    (by rwa [List.takeWhile_append_dropWhile])

theorem rstrip_decomp : ∀ (l : List Char), ∃ s, l = rstripL l ++ s := by
  intro l
  induction l with
  | nil => exact ⟨[], rfl⟩
  | cons c t ih =>
    rcases rstrip_cases c t with h | h
    · exact ⟨c :: t, by rw [h]; rfl⟩
    · obtain ⟨s, hs⟩ := ih
      exact ⟨s, by rw [h, List.cons_append, ← hs]⟩

theorem okWsB_rstrip {l : List Char} (h : okWsB l = true) :
    okWsB (rstripL l) = true := by
  obtain ⟨s, hs⟩ := rstrip_decomp l
  exact okWsB_append_left _ s (by rwa [← hs])

theorem okWsB_strip {l : List Char} (h : okWsB l = true) :
    okWsB (stripL l) = true :=
  okWsB_rstrip (okWsB_dropWhile isWs h)

theorem okWsB_append_nonws {m rest : List Char}
    (hm : ∀ c ∈ m, isWs c = false) (h : okWsB rest = true) :
    okWsB (m ++ rest) = true := by
  induction m with
  | nil => exact h
  | cons x m2 ih =>
    have hx : isWs x = false := hm x (List.mem_cons_self x m2)
    refine okWsB_cons.mpr
      ⟨Or.inl hx, ?_, ih fun c hc => hm c (List.mem_cons_of_mem _ hc)⟩
    show wsPairOk x (m2 ++ rest) = true
    cases h2r : m2 ++ rest with
    | nil => rfl
    | cons y r =>
      show (!(isWs x && isWs y)) = true
      rw [hx]
      rfl

theorem okWsB_subWords_aux (f : List Char → List Char)
    (hf : ∀ r, r ≠ [] → (∀ c ∈ r, isWordChar c = true) →
      f r ≠ [] ∧ ∀ c ∈ f r, isWordChar c = true) :
    ∀ (n : Nat) (l : List Char), l.length ≤ n → okWsB l = true →
      okWsB (subWords f l) = true := by
  intro n
  induction n with
  | zero =>
    intro l hl _
    rw [List.eq_nil_of_length_eq_zero (Nat.le_zero.mp hl)]
    rfl
  | succ n ih =>
    intro l hl hok
    cases l with
    | nil => rfl
    | cons c t =>
      have hlt : t.length ≤ n := Nat.le_of_succ_le_succ (by simpa using hl)
      obtain ⟨h1, h2, h3⟩ := okWsB_cons.mp hok
      by_cases hw : isWordChar c = true
      · rw [subWords_cons_word f hw]
        have hR : (c :: t.takeWhile isWordChar) ≠ [] ∧
            ∀ x ∈ c :: t.takeWhile isWordChar, isWordChar x = true := by
          refine ⟨by simp, ?_⟩
          intro x hx
          rcases List.mem_cons.mp hx with hx1 | hx1
          · exact hx1 ▸ hw
          · exact List.mem_takeWhile_imp hx1
        obtain ⟨hf1, hf2⟩ := hf _ hR.1 hR.2
        refine okWsB_append_nonws (fun x hx => wordChar_not_ws (hf2 x hx)) ?_
        exact ih (t.dropWhile isWordChar) ((lengthDropWhileLe _ _).trans hlt)
          (okWsB_dropWhile isWordChar h3)
      · have hwf : isWordChar c = false := by simpa using hw
        rw [subWords_cons_nword f hwf]
        refine okWsB_cons.mpr ⟨h1, ?_, ih t hlt h3⟩
        cases t with
        | nil => rfl
        | cons d t3 =>
          by_cases hwd : isWordChar d = true
          · rw [subWords_cons_word f hwd]
            have hR : (d :: t3.takeWhile isWordChar) ≠ [] ∧
                ∀ x ∈ d :: t3.takeWhile isWordChar, isWordChar x = true := by
              refine ⟨by simp, ?_⟩
              intro x hx
              rcases List.mem_cons.mp hx with hx1 | hx1
              · exact hx1 ▸ hwd
              · exact List.mem_takeWhile_imp hx1
            obtain ⟨hf1, hf2⟩ := hf _ hR.1 hR.2
            cases hfr : f (d :: t3.takeWhile isWordChar) with
            | nil => exact absurd hfr hf1
            | cons e es =>
              have he : isWs e = false :=
                wordChar_not_ws (hf2 e (by rw [hfr]; exact List.mem_cons_self e es))
              show (!(isWs c && isWs e)) = true
              rw [he]
              simp
          · have hwdf : isWordChar d = false := by simpa using hwd
            rw [subWords_cons_nword f hwdf]
            exact h2

theorem okWsB_subWords (f : List Char → List Char)
    (hf : ∀ r, r ≠ [] → (∀ c ∈ r, isWordChar c = true) →
      f r ≠ [] ∧ ∀ c ∈ f r, isWordChar c = true)
    {l : List Char} (h : okWsB l = true) : okWsB (subWords f l) = true :=
  okWsB_subWords_aux f hf l.length l le_rfl h

theorem collapseGo_true_noWsHead : ∀ (l : List Char),
    noWsHead (collapseGo true l) := by
  intro l
  induction l with
  | nil => trivial
  | cons c t ih =>
    by_cases hws : isWs c = true
    · simpa [collapseGo, hws] using ih
    · have hwsf : isWs c = false := by simpa using hws
      have e : collapseGo true (c :: t) = c :: collapseGo false t := by
        simp [collapseGo, hws]
      rw [e]
      exact hwsf

theorem okWsB_collapseGo : ∀ (l : List Char) (b : Bool),
    okWsB (collapseGo b l) = true := by
  intro l
  induction l with
  | nil => intro b; rfl
  | cons c t ih =>
    intro b
    by_cases hws : isWs c = true
    · cases b
      · have e : collapseGo false (c :: t) = ' ' :: collapseGo true t := by
          simp [collapseGo, hws]
        rw [e]
        refine okWsB_cons.mpr ⟨Or.inr rfl, ?_, ih true⟩
        cases hct : collapseGo true t with
        | nil => rfl
        | cons d r =>
          have hd : isWs d = false := by
            have := collapseGo_true_noWsHead t
            rw [hct] at this
            exact this
          show (!(isWs ' ' && isWs d)) = true
          rw [hd]
          simp
      · have e : collapseGo true (c :: t) = collapseGo true t := by
          simp [collapseGo, hws]
        rw [e]
        exact ih true
    · have hwsf : isWs c = false := by simpa using hws
      have e : collapseGo b (c :: t) = c :: collapseGo false t := by
        simp [collapseGo, hws]
      rw [e]
      refine okWsB_cons.mpr ⟨Or.inl hwsf, ?_, ih false⟩
      cases collapseGo false t with
      | nil => rfl
      | cons d r =>
        show (!(isWs c && isWs d)) = true
        rw [hwsf]
        rfl

theorem collapse_fix : ∀ (l : List Char), okWsB l = true → collapseL l = l := by
  intro l
  induction l with
  | nil => intro _; rfl
  | cons c t ih =>
    intro h
    obtain ⟨h1, h2, h3⟩ := okWsB_cons.mp h
    by_cases hws : isWs c = true
    · have hc : c = ' ' := by
        rcases h1 with h1 | h1
        · rw [h1] at hws
          exact absurd hws (by simp)
        · exact h1
      have e : collapseL (c :: t) = ' ' :: collapseGo true t := by
        simp [collapseL, collapseGo, hws]
      rw [e, hc]
      congr 1
      cases t with
      | nil => rfl
      | cons d t2 =>
        have hd : isWs d = false := by
          have hp : (!(isWs c && isWs d)) = true := h2
          rw [hws] at hp
          simpa using hp
        have e1 : collapseGo true (d :: t2) = d :: collapseGo false t2 := by
          simp [collapseGo, hd]
        have e2 : collapseL (d :: t2) = d :: collapseGo false t2 := by
          simp [collapseL, collapseGo, hd]
        rw [e1, ← e2]
        exact ih h3
    · have hwsf : isWs c = false := by simpa using hws
      have e : collapseL (c :: t) = c :: collapseGo false t := by
        simp [collapseL, collapseGo, hwsf]
      rw [e]
      congr 1
      exact ih h3

theorem lstrip_fix {l : List Char} (h : noWsHead l) : lstripL l = l := by
  cases l with
  | nil => rfl
  | cons c t =>
    have hc : isWs c = false := h
    simp [lstripL, List.dropWhile_cons, hc]

theorem rstrip_idem : ∀ (l : List Char), rstripL (rstripL l) = rstripL l := by
  intro l
  induction l with
  | nil => rfl
  | cons c t ih =>
    by_cases hcond : rstripL t = [] ∧ isWs c = true
    · rw [rstripL, if_pos hcond]
      rfl
    · have e : rstripL (c :: t) = c :: rstripL t := by
        rw [rstripL, if_neg hcond]
      rw [e, rstripL, ih, if_neg hcond]

theorem strip_idem (l : List Char) : stripL (stripL l) = stripL l := by
  show rstripL (lstripL (stripL l)) = stripL l
  rw [lstrip_fix (noWsHead_stripL l)]
  show rstripL (rstripL (lstripL l)) = _
  rw [rstrip_idem]
  rfl

theorem wordNumSub_pos {w d r : List Char} (h : lowerL r = w ∨ lowerL r = d) :
    wordNumSub w d r = d := by
  rw [wordNumSub, if_pos h]

theorem wordNumSub_neg {w d r : List Char}
    (h : ¬(lowerL r = w ∨ lowerL r = d)) : wordNumSub w d r = r := by
  rw [wordNumSub, if_neg h]

theorem wordNumSub_props (w d : List Char) (hd : d ≠ [])
    (hdw : ∀ c ∈ d, isWordChar c = true) :
    ∀ r, r ≠ [] → (∀ c ∈ r, isWordChar c = true) →
      wordNumSub w d r ≠ [] ∧ ∀ c ∈ wordNumSub w d r, isWordChar c = true := by
  intro r hr hrw
  rw [wordNumSub]
  split
  · exact ⟨hd, hdw⟩
  · exact ⟨hr, hrw⟩

theorem sub30_props :
    ∀ r, r ≠ [] → (∀ c ∈ r, isWordChar c = true) →
      sub30 r ≠ [] ∧ ∀ c ∈ sub30 r, isWordChar c = true :=
  wordNumSub_props _ _ (by decide) (by decide)

theorem sub60_props :
    ∀ r, r ≠ [] → (∀ c ∈ r, isWordChar c = true) →
      sub60 r ≠ [] ∧ ∀ c ∈ sub60 r, isWordChar c = true :=
  wordNumSub_props _ _ (by decide) (by decide)

theorem sub90_props :
    ∀ r, r ≠ [] → (∀ c ∈ r, isWordChar c = true) →
      sub90 r ≠ [] ∧ ∀ c ∈ sub90 r, isWordChar c = true :=
  wordNumSub_props _ _ (by decide) (by decide)

theorem sub14_props :
    ∀ r, r ≠ [] → (∀ c ∈ r, isWordChar c = true) →
      sub14 r ≠ [] ∧ ∀ c ∈ sub14 r, isWordChar c = true :=
  wordNumSub_props _ _ (by decide) (by decide)

/-- After all four written-number rewrites, a word run is a fixpoint of each
single rewrite: a rewritten run is a digit string that every rewrite maps to
itself, and an untouched run matches no alternative. -/
theorem numSub_all_fixed (r : List Char) :
    sub30 (sub14 (sub90 (sub60 (sub30 r)))) = sub14 (sub90 (sub60 (sub30 r))) ∧
    sub60 (sub14 (sub90 (sub60 (sub30 r)))) = sub14 (sub90 (sub60 (sub30 r))) ∧
    sub90 (sub14 (sub90 (sub60 (sub30 r)))) = sub14 (sub90 (sub60 (sub30 r))) ∧
    sub14 (sub14 (sub90 (sub60 (sub30 r)))) = sub14 (sub90 (sub60 (sub30 r))) := by
  by_cases c30 : lowerL r = "thirty".toList ∨ lowerL r = "30".toList
  · have h30 : sub30 r = "30".toList := wordNumSub_pos c30
    rw [h30]
    decide
  · have h30 : sub30 r = r := wordNumSub_neg c30
    rw [h30]
    by_cases c60 : lowerL r = "sixty".toList ∨ lowerL r = "60".toList
    · have h60 : sub60 r = "60".toList := wordNumSub_pos c60
      rw [h60]
      decide
    · have h60 : sub60 r = r := wordNumSub_neg c60
      rw [h60]
      by_cases c90 : lowerL r = "ninety".toList ∨ lowerL r = "90".toList
      · have h90 : sub90 r = "90".toList := wordNumSub_pos c90
        rw [h90]
        decide
      · have h90 : sub90 r = r := wordNumSub_neg c90
        rw [h90]
        by_cases c14 : lowerL r = "fourteen".toList ∨ lowerL r = "14".toList
        · have h14 : sub14 r = "14".toList := wordNumSub_pos c14
          rw [h14]
          decide
        · have h14 : sub14 r = r := wordNumSub_neg c14
          rw [h14]
          exact ⟨wordNumSub_neg c30, wordNumSub_neg c60, wordNumSub_neg c90,
            wordNumSub_neg c14⟩

/-- C2 counterexample: removing a page marker can leave two adjacent spaces
(the whitespace collapse ran before the removal), so a second normalization
pass changes the result. -/
theorem c2_counterexample :
    cleanText (cleanText "a --- Page 1 --- b") ≠
      cleanText "a --- Page 1 --- b" := by
  decide

/-- C2 amended: `_clean_text` is idempotent on every input on which the
page-marker removal removes nothing — neither from the whitespace-collapsed
input (removal can leave a double space) nor from the normalized output (the
number rewrite can create a new marker, e.g. from `--- Page thirty ---`). -/
theorem c2_idempotent_amended (s : String)
    (h1 : removeMarkers (collapseL s.toList) = collapseL s.toList)
    (h2 : removeMarkers (cleanList s.toList) = cleanList s.toList) :
    cleanText (cleanText s) = cleanText s := by
  set z := collapseL s.toList with hz
  have hy : cleanList s.toList = stripL (rwNumbers z) := by
    rw [cleanList, h1]
  set y := cleanList s.toList with hydef
  have hokz : okWsB z = true := okWsB_collapseGo s.toList false
  have hokr : okWsB (rwNumbers z) = true := by
    rw [rwNumbers]
    exact okWsB_subWords _ sub14_props (okWsB_subWords _ sub90_props
      (okWsB_subWords _ sub60_props (okWsB_subWords _ sub30_props hokz)))
  have hoky : okWsB y = true := by
    rw [hy]
    exact okWsB_strip hokr
  have hcol : collapseL y = y := collapse_fix y hoky
  have hruns : wordRuns y =
      ((((wordRuns z).map sub30).map sub60).map sub90).map sub14 := by
    rw [hy, wordRuns_strip, rwNumbers, wordRuns_subWords sub14 sub14_props,
      wordRuns_subWords sub90 sub90_props, wordRuns_subWords sub60 sub60_props,
      wordRuns_subWords sub30 sub30_props]
  have hfix : ∀ r ∈ wordRuns y,
      sub30 r = r ∧ sub60 r = r ∧ sub90 r = r ∧ sub14 r = r := by
    intro r hr
    rw [hruns] at hr
    simp only [List.mem_map] at hr
    obtain ⟨r3, ⟨r2, ⟨r1, ⟨r0, hr0, e1⟩, e2⟩, e3⟩, e4⟩ := hr
    subst e4
    subst e3
    subst e2
    subst e1
    exact numSub_all_fixed r0
  have hrw : rwNumbers y = y := by
    rw [rwNumbers, subWords_fix (fun r hr => (hfix r hr).1),
      subWords_fix (fun r hr => (hfix r hr).2.1),
      subWords_fix (fun r hr => (hfix r hr).2.2.1),
      subWords_fix (fun r hr => (hfix r hr).2.2.2)]
  have hst : stripL y = y := by
    rw [hy]
    exact strip_idem _
  have hcl : cleanList y = y := by
    rw [cleanList, hcol, h2, hrw, hst]
  show String.mk (cleanList ((cleanText s).toList)) = cleanText s
  have htl : (cleanText s).toList = y := rfl
  rw [htl, hcl]
  rfl

theorem c2_witness :
    cleanText (cleanText "employee gives thirty days notice") =
      cleanText "employee gives thirty days notice" :=
  c2_idempotent_amended _ (by decide) (by decide)

end SmartDoc
